import Mathlib

/-!
Bin iterator of the hierarchical range index (`src/biniter.c`).

A shallow embedding of `bin_iterator_init` and `bin_iterator_next`, and the
properties of the traversal they implement.

Modelling conventions.

* `uint64_t` and `size_t` (64 bits on the x86-64 target the source is written
  for) are natural numbers; every operation that can leave the 64-bit range in
  C is followed by an explicit `% 2 ^ 64`.
* The flexible array `bins->bins[]` is a list; a pointer `&bins->bins[i]` is
  the flat index `some i`, and `NULL` is `none`.
* `bin_iterator_next` mutates `*it`; here it returns the result together with
  the new iterator.
* The local constants of `bin_iterator_next` are separate definitions of the
  same name, each a function of the index and of the iterator before the call.
* A shift by 64 or more is undefined in C. The embedding gives such a shift
  its mathematical value (`x * 2 ^ n` reduced modulo `2 ^ 64`, resp.
  `x / 2 ^ n`); for a shift count below 64 this is exactly the C operator.
-/

namespace Biniter

/-! ## Data model -/

/-- Half-open coordinate interval `[start, end)`; `end_` is the C field `end`. -/
structure genomic_range_t where
  start : Nat
  end_ : Nat
deriving DecidableEq, Repr

/-- Locator of a bin payload; never read by the iterator. -/
structure bin_header_t where
  ofs : Nat
  len : Nat
deriving DecidableEq, Repr

/-- Slice of the flat bin array: `ptr = some i` is `&bins->bins[i]`, `none` is `NULL`. -/
structure bin_slice_t where
  ptr : Option Nat
  cnt : Nat
deriving DecidableEq, Repr

/-- Coordinate span and bin size reported with a slice. -/
structure bin_slice_info_t where
  range : genomic_range_t
  bin_size : Nat
deriving DecidableEq, Repr

/-- The index: the packed depth mask, the table of pitch exponents (indexed by
depth order; a `uint8_t[64]` in C) and the flat bin array. -/
structure bins_t where
  bin_count_mask : Nat
  bin_pitch_indices : Nat → Nat
  bins : List bin_header_t

/-- The cursor: the stored query and the mask of finished bits. -/
structure bin_iterator_t where
  range : genomic_range_t
  finished : Nat
deriving DecidableEq, Repr

/-- Return value of `bin_iterator_next`. -/
structure bin_iterator_next_t where
  slice : bin_slice_t
  info : bin_slice_info_t
deriving DecidableEq, Repr

/-! ## Operations -/

/-- Population count of the low 64 bits, the value of the `popcnt` instruction. -/
def _mm_popcnt_u64 (x : Nat) : Nat :=
  ((List.range 64).filter (fun i => x.testBit i)).length

/-- Embedding of `bin_iterator_init`: store the query, nothing finished. -/
def bin_iterator_init (_bins : bins_t) (range : genomic_range_t) : bin_iterator_t :=
  { range := range, finished := 0 }

/-- Local `remaining = everything & ~finished`, with `~` the 64-bit complement. -/
def remaining (bins : bins_t) (it : bin_iterator_t) : Nat :=
  bins.bin_count_mask &&& ((2 ^ 64 - 1) ^^^ it.finished)

/-- Local `bin_ofs_base = (size_t)(everything & finished)`. -/
def bin_ofs_base (bins : bins_t) (it : bin_iterator_t) : Nat :=
  (bins.bin_count_mask &&& it.finished) % 2 ^ 64

/-- Local `iterations_done = _mm_popcnt_u64(bin_ofs_base)`. -/
def iterations_done (bins : bins_t) (it : bin_iterator_t) : Nat :=
  _mm_popcnt_u64 (bin_ofs_base bins it)

/-- Local `bin_pitch_index = bins->bin_pitch_indices[iterations_done]`. -/
def bin_pitch_index (bins : bins_t) (it : bin_iterator_t) : Nat :=
  bins.bin_pitch_indices (iterations_done bins it)

/-- Local `bin_pitch = 0x01ULL << bin_pitch_index`. -/
def bin_pitch (bins : bins_t) (it : bin_iterator_t) : Nat :=
  (1 <<< bin_pitch_index bins it) % 2 ^ 64

/-- Local `bin_size = 2 * bin_pitch`. -/
def bin_size (bins : bins_t) (it : bin_iterator_t) : Nat :=
  (2 * bin_pitch bins it) % 2 ^ 64

/-- Local `bin_ofs_disp_start`: the start cell, one less when it is positive. -/
def bin_ofs_disp_start (bins : bins_t) (it : bin_iterator_t) : Nat :=
  let t := it.range.start >>> bin_pitch_index bins it
  if t > 0 then t - 1 else t

/-- Local `bin_ofs_disp_end`: the end cell, cut at `finished`, plus one. -/
def bin_ofs_disp_end (bins : bins_t) (it : bin_iterator_t) : Nat :=
  let t := it.range.end_ >>> bin_pitch_index bins it
  let t := if t > it.finished then it.finished else t
  (t + 1) % 2 ^ 64

/-- Local `bin_range_start = bin_ofs_disp_start << bin_pitch_index`. -/
def bin_range_start (bins : bins_t) (it : bin_iterator_t) : Nat :=
  (bin_ofs_disp_start bins it <<< bin_pitch_index bins it) % 2 ^ 64

/-- Local `bin_range_end = (bin_ofs_disp_end + 1) << bin_pitch_index`. -/
def bin_range_end (bins : bins_t) (it : bin_iterator_t) : Nat :=
  (((bin_ofs_disp_end bins it + 1) % 2 ^ 64) <<< bin_pitch_index bins it) % 2 ^ 64

/-- The value returned when no depth remains. -/
def exhausted : bin_iterator_next_t :=
  { slice := { ptr := none, cnt := 0 },
    info := { range := { start := 0, end_ := 0 }, bin_size := 0 } }

/-- Embedding of `bin_iterator_next`: the returned value and the iterator after the call.
In the second branch `remaining` is positive, so `remaining - 1` does not wrap;
`cnt` is the 64-bit difference `bin_ofs_disp_end - bin_ofs_disp_start`. -/
def bin_iterator_next (bins : bins_t) (it : bin_iterator_t) :
    bin_iterator_next_t × bin_iterator_t :=
  if remaining bins it = 0 then
    (exhausted, it)
  else
    ({ slice :=
         { ptr := some ((bin_ofs_base bins it + bin_ofs_disp_start bins it) % 2 ^ 64),
           cnt := (bin_ofs_disp_end bins it + 2 ^ 64 - bin_ofs_disp_start bins it) % 2 ^ 64 },
       info :=
         { range := { start := bin_range_start bins it, end_ := bin_range_end bins it },
           bin_size := bin_size bins it } },
     { it with finished := remaining bins it ^^^ (remaining bins it - 1) })

/-- The iterator after `n` calls of `bin_iterator_next` on a fresh iterator. -/
def iter_after (bins : bins_t) (range : genomic_range_t) : Nat → bin_iterator_t
  | 0 => bin_iterator_init bins range
  | n + 1 => (bin_iterator_next bins (iter_after bins range n)).2

/-- The value returned by call number `n + 1` on a fresh iterator. -/
def nth_result (bins : bins_t) (range : genomic_range_t) (n : Nat) : bin_iterator_next_t :=
  (bin_iterator_next bins (iter_after bins range n)).1

/-! ## Specification vocabulary -/

/-- Positions below `m` of the set bits of `mask`, in increasing order. -/
def bitsBelow (mask m : Nat) : List Nat :=
  (List.range m).filter (fun i => mask.testBit i)

/-- Positions of the set bits of a 64-bit mask, lowest first: the depths. -/
def depth_bits (mask : Nat) : List Nat := bitsBelow mask 64

/-- The index of the worked example of the source: bits 0, 5 and 7, pitches
`2 ^ 62`, `2 ^ 18`, `2 ^ 15`. -/
def example_bins : bins_t :=
  { bin_count_mask := 0xA1,
    bin_pitch_indices := fun i => [62, 18, 15].getD i 0,
    bins := [] }

/-- A query that starts at the upper end `2 ^ 63` of the coordinate space. -/
def query_beyond : genomic_range_t := { start := 2 ^ 63, end_ := 2 ^ 63 + 1000 }

/-- A query inside cells 9 and 10 of the second depth of `example_bins`
(pitch `2 ^ 18`, 32 bins). -/
def query_cell9 : genomic_range_t := { start := 9 * 2 ^ 18, end_ := 10 * 2 ^ 18 }

/-- Whether the flat index `i` lies in the slice `[ptr, ptr + cnt)`. -/
def slice_contains (s : bin_slice_t) (i : Nat) : Bool :=
  match s.ptr with
  | none => false
  | some a => decide (a ≤ i) && decide (i < a + s.cnt)

/-- An index with depths of 1, 8 and 16 bins (bits 0, 3, 4) whose pitches
`2 ^ 62`, `2 ^ 60`, `2 ^ 59` make every depth tile the space `[0, 2 ^ 63)`. -/
def tiling_bins : bins_t :=
  { bin_count_mask := 0b11001,
    bin_pitch_indices := fun i => [62, 60, 59].getD i 0,
    bins := [] }

/-- A query across the upper end `2 ^ 63` of the coordinate space. -/
def query_across : genomic_range_t := { start := 2 ^ 63 - 1, end_ := 2 ^ 63 + 1 }

/-- The coordinate `x` lies in the covered range of some produced call of a
fresh iterator over `range`. -/
def covered (bins : bins_t) (range : genomic_range_t) (x : Nat) : Prop :=
  ∃ n, (nth_result bins range n).slice.ptr ≠ none ∧
    (nth_result bins range n).info.range.start ≤ x ∧
    x < (nth_result bins range n).info.range.end_

/-- The lowest set bit of a 64-bit word, as a value: `2 ^ p` for the lowest set
bit position `p`, and 0 for the word 0. -/
def lowbit (r : Nat) : Nat :=
  match depth_bits r with
  | [] => 0
  | p :: _ => 2 ^ p

/-- An index with the depth mask of `example_bins` and another pitch table and
bin array. -/
def example_bins_alt : bins_t :=
  { bin_count_mask := 0xA1,
    bin_pitch_indices := fun i => [62, 40, 3].getD i 0,
    bins := [{ ofs := 0, len := 16 }] }

/-- A query far beyond the `33 * 2 ^ 18` coordinates spanned by the 32 bins of
the second depth of `example_bins`. -/
def query_far : genomic_range_t := { start := 2 ^ 30, end_ := 2 ^ 30 + 1 }

/-! ## Bit-level lemmas -/

theorem testBit_odd_shift (p c i : Nat) :
    (2 ^ p * (2 * c + 1)).testBit i
      = if i < p + 1 then decide (i = p) else c.testBit (i - (p + 1)) := by
  have h : 2 ^ p * (2 * c + 1) = 2 ^ (p + 1) * c + 2 ^ p := by ring
  have hlt : 2 ^ p < 2 ^ (p + 1) := Nat.pow_lt_pow_right (by decide) (Nat.lt_succ_self p)
  rw [h, Nat.testBit_mul_pow_two_add c hlt i, Nat.testBit_two_pow]
  by_cases hi : i < p + 1
  · simp only [hi, if_true]
    by_cases hp : i = p
    · simp [hp]
    · have : ¬ p = i := fun e => hp e.symm
      simp [hp, this]
  · simp [hi]

theorem testBit_odd_shift_pred (p c i : Nat) :
    (2 ^ p * (2 * c + 1) - 1).testBit i
      = if i < p + 1 then decide (i < p) else c.testBit (i - (p + 1)) := by
  have hpos : 0 < 2 ^ p := Nat.two_pow_pos p
  have h : 2 ^ p * (2 * c + 1) - 1 = 2 ^ (p + 1) * c + (2 ^ p - 1) := by
    have : 2 ^ p * (2 * c + 1) = 2 ^ (p + 1) * c + 2 ^ p := by ring
    omega
  have hlt : 2 ^ p - 1 < 2 ^ (p + 1) := by
    have : 2 ^ p < 2 ^ (p + 1) := Nat.pow_lt_pow_right (by decide) (Nat.lt_succ_self p)
    omega
  rw [h, Nat.testBit_mul_pow_two_add c hlt i, Nat.testBit_two_pow_sub_one]

/-- For a non-zero word, `r ^ (r - 1)` is the all-ones mask up to and including
the lowest set bit of `r`. -/
theorem xor_pred_eq (r : Nat) (hr : r ≠ 0) :
    ∃ p, r.testBit p = true ∧ (∀ i, i < p → r.testBit i = false) ∧
      r ^^^ (r - 1) = 2 ^ (p + 1) - 1 := by
  obtain ⟨p, m, hm, rfl⟩ := Nat.exists_eq_two_pow_mul_odd hr
  obtain ⟨c, rfl⟩ := hm
  refine ⟨p, ?_, ?_, ?_⟩
  · rw [testBit_odd_shift]; simp
  · intro i hi
    rw [testBit_odd_shift]
    have h1 : i < p + 1 := by omega
    have h2 : i ≠ p := by omega
    simp [h1, h2]
  · apply Nat.eq_of_testBit_eq
    intro i
    rw [Nat.testBit_xor, testBit_odd_shift, testBit_odd_shift_pred,
      Nat.testBit_two_pow_sub_one]
    by_cases hi : i < p + 1
    · simp only [hi, if_true, decide_True]
      by_cases hp : i = p
      · simp [hp]
      · have : i < p := by omega
        simp [hp, this]
    · simp [hi]

/-! ## Lemmas on the list of set-bit positions -/

theorem bitsBelow_succ (mask m : Nat) :
    bitsBelow mask (m + 1)
      = bitsBelow mask m ++ (if mask.testBit m = true then [m] else []) := by
  unfold bitsBelow
  rw [List.range_succ, List.filter_append]
  by_cases h : mask.testBit m = true <;> simp [h]

theorem bitsBelow_initial_segment (mask : Nat) {m n : Nat} (h : m ≤ n) :
    bitsBelow mask m <+: bitsBelow mask n := by
  induction n, h using Nat.le_induction with
  | base => exact List.prefix_refl _
  | succ n _ ih =>
    rw [bitsBelow_succ]
    exact ih.trans (List.prefix_append _ _)

theorem bitsBelow_eq_of_clear (mask : Nat) {m p : Nat} (hmp : m ≤ p)
    (h : ∀ i, m ≤ i → i < p → mask.testBit i = false) :
    bitsBelow mask p = bitsBelow mask m := by
  induction p, hmp using Nat.le_induction with
  | base => rfl
  | succ n hn ih =>
    have hcl : mask.testBit n = false := h n hn (Nat.lt_succ_self n)
    rw [bitsBelow_succ, ih (fun i hi hlt => h i hi (Nat.lt_succ_of_lt hlt))]
    simp [hcl]

theorem bitsBelow_congr {a b m : Nat} (h : ∀ i, i < m → a.testBit i = b.testBit i) :
    bitsBelow a m = bitsBelow b m := by
  unfold bitsBelow
  apply List.filter_congr
  intro i hi
  exact h i (List.mem_range.mp hi)

theorem bitsBelow_sum (mask m : Nat) :
    ((bitsBelow mask m).map (fun p => 2 ^ p)).sum = mask % 2 ^ m := by
  induction m with
  | zero => simp [bitsBelow, Nat.mod_one]
  | succ m ih =>
    rw [bitsBelow_succ, List.map_append, List.sum_append, ih, Nat.mod_pow_succ]
    by_cases h : mask.testBit m = true
    · have h1 : mask / 2 ^ m % 2 = 1 := by
        rw [Nat.testBit_to_div_mod] at h; simpa using h
      simp [h, h1]
    · have h1 : mask / 2 ^ m % 2 = 0 := by
        rw [Nat.testBit_to_div_mod] at h
        have : ¬ mask / 2 ^ m % 2 = 1 := by simpa using h
        omega
      simp [h, h1]

/-- The population count of the low `m` bits of a word counts its set bits below `m`. -/
theorem popcnt_mod (mask : Nat) {m : Nat} (hm : m ≤ 64) :
    _mm_popcnt_u64 (mask % 2 ^ m) = (bitsBelow mask m).length := by
  have h1 : bitsBelow (mask % 2 ^ m) 64 = bitsBelow (mask % 2 ^ m) m :=
    bitsBelow_eq_of_clear _ hm (fun i hi _ => by
      rw [Nat.testBit_mod_two_pow]
      have : ¬ i < m := by omega
      simp [this])
  have h2 : bitsBelow (mask % 2 ^ m) m = bitsBelow mask m :=
    bitsBelow_congr (fun i hi => by rw [Nat.testBit_mod_two_pow]; simp [hi])
  show (bitsBelow (mask % 2 ^ m) 64).length = _
  rw [h1, h2]

theorem popcnt_eq_length (mask : Nat) :
    _mm_popcnt_u64 mask = (depth_bits mask).length := rfl

/-! ## One step from a state whose `finished` is a low-order all-ones mask -/

theorem testBit_remaining (bins : bins_t) (it : bin_iterator_t) {m : Nat}
    (hm : m ≤ 64) (hf : it.finished = 2 ^ m - 1) (i : Nat) :
    (remaining bins it).testBit i
      = (bins.bin_count_mask.testBit i && (decide (i < 64) && !decide (i < m))) := by
  unfold remaining
  rw [hf, Nat.testBit_and, Nat.testBit_xor, Nat.testBit_two_pow_sub_one,
    Nat.testBit_two_pow_sub_one]
  by_cases h1 : i < 64 <;> by_cases h2 : i < m <;> simp [h1, h2]
  omega

theorem bin_ofs_base_of_ones (bins : bins_t) (it : bin_iterator_t) {m : Nat}
    (hm : m ≤ 64) (hf : it.finished = 2 ^ m - 1) :
    bin_ofs_base bins it = bins.bin_count_mask % 2 ^ m := by
  unfold bin_ofs_base
  rw [hf, Nat.and_pow_two_sub_one_eq_mod]
  apply Nat.mod_eq_of_lt
  have h1 : bins.bin_count_mask % 2 ^ m < 2 ^ m := Nat.mod_lt _ (Nat.two_pow_pos m)
  have h2 : 2 ^ m ≤ 2 ^ 64 := Nat.pow_le_pow_right (by decide) hm
  omega

/-- Either nothing remains, and no bit of the mask lies at or above `m`; or the
lowest remaining bit `p` is the next set bit of the mask, and `finished`
becomes the all-ones mask up to `p`. -/
theorem step_cases (bins : bins_t) (it : bin_iterator_t) {m : Nat}
    (hm : m ≤ 64) (hf : it.finished = 2 ^ m - 1) :
    (remaining bins it = 0 ∧
        bitsBelow bins.bin_count_mask 64 = bitsBelow bins.bin_count_mask m) ∨
    (remaining bins it ≠ 0 ∧ ∃ p, m ≤ p ∧ p < 64 ∧
        bins.bin_count_mask.testBit p = true ∧
        bitsBelow bins.bin_count_mask p = bitsBelow bins.bin_count_mask m ∧
        remaining bins it ^^^ (remaining bins it - 1) = 2 ^ (p + 1) - 1) := by
  by_cases hr : remaining bins it = 0
  · left
    refine ⟨hr, bitsBelow_eq_of_clear _ hm (fun i hi hlt => ?_)⟩
    have h := testBit_remaining bins it hm hf i
    rw [hr, Nat.zero_testBit] at h
    have h2 : ¬ i < m := by omega
    simpa [hlt, h2] using h.symm
  · right
    refine ⟨hr, ?_⟩
    obtain ⟨p, hp, hlow, hx⟩ := xor_pred_eq _ hr
    rw [testBit_remaining bins it hm hf p] at hp
    simp only [Bool.and_eq_true, decide_eq_true_eq, Bool.not_eq_true', decide_eq_false_iff_not]
      at hp
    obtain ⟨hbit, h64, hnm⟩ := hp
    refine ⟨p, by omega, h64, hbit, bitsBelow_eq_of_clear _ (by omega) (fun i hi hlt => ?_), hx⟩
    have h := hlow i hlt
    rw [testBit_remaining bins it hm hf i] at h
    have h1 : i < 64 := by omega
    have h2 : ¬ i < m := by omega
    simpa [h1, h2] using h

theorem bin_iterator_next_of_zero (bins : bins_t) (it : bin_iterator_t)
    (h : remaining bins it = 0) : bin_iterator_next bins it = (exhausted, it) := by
  unfold bin_iterator_next
  rw [if_pos h]

theorem bin_iterator_next_of_ne (bins : bins_t) (it : bin_iterator_t)
    (h : remaining bins it ≠ 0) :
    bin_iterator_next bins it =
      ({ slice :=
           { ptr := some ((bin_ofs_base bins it + bin_ofs_disp_start bins it) % 2 ^ 64),
             cnt := (bin_ofs_disp_end bins it + 2 ^ 64 - bin_ofs_disp_start bins it) % 2 ^ 64 },
         info :=
           { range := { start := bin_range_start bins it, end_ := bin_range_end bins it },
             bin_size := bin_size bins it } },
       { it with finished := remaining bins it ^^^ (remaining bins it - 1) }) := by
  unfold bin_iterator_next
  rw [if_neg h]

/-! ## The traversal invariant -/

/-- After `n` calls on a fresh iterator, `finished` is an all-ones mask
`2 ^ m - 1` with `m ≤ 64`, and the mask has `min n k` set bits below `m`,
where `k` is its population count. -/
theorem iter_after_ones (bins : bins_t) (range : genomic_range_t) (n : Nat) :
    ∃ m, m ≤ 64 ∧ (iter_after bins range n).finished = 2 ^ m - 1 ∧
      (bitsBelow bins.bin_count_mask m).length
        = min n (_mm_popcnt_u64 bins.bin_count_mask) := by
  induction n with
  | zero => exact ⟨0, by decide, rfl, by simp [bitsBelow]⟩
  | succ n ih =>
    obtain ⟨m, hm, hf, hlen⟩ := ih
    rcases step_cases bins (iter_after bins range n) hm hf with ⟨hr, hall⟩ | ⟨hr, p, hmp, hp, hbit, hsame, hx⟩
    · refine ⟨m, hm, ?_, ?_⟩
      · show (bin_iterator_next bins (iter_after bins range n)).2.finished = _
        rw [bin_iterator_next_of_zero _ _ hr]; exact hf
      · have hk : (bitsBelow bins.bin_count_mask m).length
            = _mm_popcnt_u64 bins.bin_count_mask := by
          rw [← hall]; rfl
        rw [hk] at hlen ⊢
        omega
    · refine ⟨p + 1, by omega, ?_, ?_⟩
      · show (bin_iterator_next bins (iter_after bins range n)).2.finished = _
        rw [bin_iterator_next_of_ne _ _ hr]; exact hx
      · have hle : (bitsBelow bins.bin_count_mask (p + 1)).length
            ≤ _mm_popcnt_u64 bins.bin_count_mask :=
          (bitsBelow_initial_segment bins.bin_count_mask (show p + 1 ≤ 64 by omega)).length_le
        rw [bitsBelow_succ, hsame, hbit] at hle ⊢
        simp only [if_true, List.length_append, List.length_singleton] at hle ⊢
        omega

/-- A call is productive exactly while fewer than `k` calls have been made. -/
theorem remaining_ne_zero_iff (bins : bins_t) (range : genomic_range_t) (n : Nat) :
    remaining bins (iter_after bins range n) ≠ 0
      ↔ n < _mm_popcnt_u64 bins.bin_count_mask := by
  obtain ⟨m, hm, hf, hlen⟩ := iter_after_ones bins range n
  rcases step_cases bins (iter_after bins range n) hm hf with ⟨hr, hall⟩ | ⟨hr, p, hmp, hp, hbit, hsame, _⟩
  · have hk : (bitsBelow bins.bin_count_mask m).length
        = _mm_popcnt_u64 bins.bin_count_mask := by
      rw [← hall]; rfl
    constructor
    · intro h; exact absurd hr h
    · intro h; omega
  · have hle : (bitsBelow bins.bin_count_mask (p + 1)).length
        ≤ _mm_popcnt_u64 bins.bin_count_mask :=
      (bitsBelow_initial_segment bins.bin_count_mask (show p + 1 ≤ 64 by omega)).length_le
    rw [bitsBelow_succ, hsame, hbit] at hle
    simp only [if_true, List.length_append, List.length_singleton] at hle
    constructor
    · intro _; omega
    · intro _; exact hr

/-- The depth order read by call `n + 1` of a fresh iterator is `n`, and the
offset base is the mask cut below an `m ≤ 63` with `n` set bits below it. -/
theorem produced_step_shape (bins : bins_t) (range : genomic_range_t) {n : Nat}
    (hn : n < _mm_popcnt_u64 bins.bin_count_mask) :
    ∃ m, m ≤ 63 ∧ (iter_after bins range n).finished = 2 ^ m - 1 ∧
      (bitsBelow bins.bin_count_mask m).length = n ∧
      bin_ofs_base bins (iter_after bins range n) = bins.bin_count_mask % 2 ^ m ∧
      iterations_done bins (iter_after bins range n) = n := by
  obtain ⟨m, hm, hf, hlen⟩ := iter_after_ones bins range n
  have hlen' : (bitsBelow bins.bin_count_mask m).length = n := by omega
  have hbase := bin_ofs_base_of_ones bins (iter_after bins range n) hm hf
  have hm63 : m ≤ 63 := by
    rcases Nat.lt_or_ge m 64 with h | h
    · omega
    · have h64 : m = 64 := by omega
      subst h64
      have : (bitsBelow bins.bin_count_mask 64).length
          = _mm_popcnt_u64 bins.bin_count_mask := rfl
      omega
  refine ⟨m, hm63, hf, hlen', hbase, ?_⟩
  unfold iterations_done
  rw [hbase, popcnt_mod _ hm, hlen']

/-! ## Termination and exhaustion -/

/-- C1. With `k` the population count of the depth mask, call number `n + 1`
on a fresh iterator returns a produced result (non-null slice pointer, hence
different from the exhausted value) when `n < k`, and the exhausted value
(null pointer, count 0, range `{0, 0}`, bin size 0) when `k ≤ n`: exactly the
first `k` calls produce, and every later call is exhausted. -/
theorem first_k_calls_produce_then_exhausted (bins : bins_t) (range : genomic_range_t)
    (n : Nat) :
    (n < _mm_popcnt_u64 bins.bin_count_mask →
        (nth_result bins range n).slice.ptr ≠ none ∧
        nth_result bins range n ≠ exhausted) ∧
    (_mm_popcnt_u64 bins.bin_count_mask ≤ n →
        nth_result bins range n =
          { slice := { ptr := none, cnt := 0 },
            info := { range := { start := 0, end_ := 0 }, bin_size := 0 } }) := by
  constructor
  · intro hn
    have hr := (remaining_ne_zero_iff bins range n).mpr hn
    have hp : (nth_result bins range n).slice.ptr ≠ none := by
      unfold nth_result
      rw [bin_iterator_next_of_ne _ _ hr]
      simp
    refine ⟨hp, fun he => hp ?_⟩
    rw [he]; rfl
  · intro hn
    have hr : remaining bins (iter_after bins range n) = 0 := by
      by_contra h
      have := (remaining_ne_zero_iff bins range n).mp h
      omega
    unfold nth_result
    rw [bin_iterator_next_of_zero _ _ hr]
    rfl

/-- Witness for C1 on the index with bits 0, 5, 7: the third call produces,
the fourth is exhausted. -/
theorem first_k_calls_produce_then_exhausted_witness :
    (2 < _mm_popcnt_u64 example_bins.bin_count_mask ∧
      (nth_result example_bins ⟨1000, 2000⟩ 2).slice.ptr ≠ none) ∧
    (_mm_popcnt_u64 example_bins.bin_count_mask ≤ 3 ∧
      nth_result example_bins ⟨1000, 2000⟩ 3 = exhausted) :=
  ⟨⟨by decide,
      ((first_k_calls_produce_then_exhausted example_bins ⟨1000, 2000⟩ 2).1 (by decide)).1⟩,
    ⟨by decide,
      (first_k_calls_produce_then_exhausted example_bins ⟨1000, 2000⟩ 3).2 (by decide)⟩⟩

/-! ## Offsets -/

/-- C2. For `d` below the population count of the mask, at call `d + 1` of a
fresh iterator `bin_ofs_base`, which is `depth_mask & finished`, equals the sum
of `2 ^ p` over the `d` lowest set bit positions `p` of the mask; the slice
pointer is that base plus `bin_ofs_disp_start` in `size_t` arithmetic, which is
the plain sum whenever that sum fits in 64 bits. -/
theorem offset_base_is_sum_of_lower_depths (bins : bins_t) (range : genomic_range_t)
    (d : Nat) (hd : d < _mm_popcnt_u64 bins.bin_count_mask) :
    bin_ofs_base bins (iter_after bins range d)
        = bins.bin_count_mask &&& (iter_after bins range d).finished ∧
    bin_ofs_base bins (iter_after bins range d)
        = (((depth_bits bins.bin_count_mask).take d).map (fun p => 2 ^ p)).sum ∧
    (nth_result bins range d).slice.ptr
        = some ((bin_ofs_base bins (iter_after bins range d)
                  + bin_ofs_disp_start bins (iter_after bins range d)) % 2 ^ 64) ∧
    (bin_ofs_base bins (iter_after bins range d)
          + bin_ofs_disp_start bins (iter_after bins range d) < 2 ^ 64 →
      (nth_result bins range d).slice.ptr
        = some (bin_ofs_base bins (iter_after bins range d)
                  + bin_ofs_disp_start bins (iter_after bins range d))) := by
  obtain ⟨m, hm, hf, hlen, hbase, _⟩ := produced_step_shape bins range hd
  have hr := (remaining_ne_zero_iff bins range d).mpr hd
  have hptr : (nth_result bins range d).slice.ptr
        = some ((bin_ofs_base bins (iter_after bins range d)
                  + bin_ofs_disp_start bins (iter_after bins range d)) % 2 ^ 64) := by
    unfold nth_result
    rw [bin_iterator_next_of_ne _ _ hr]
  refine ⟨?_, ?_, hptr, ?_⟩
  · rw [hbase, hf, Nat.and_pow_two_sub_one_eq_mod]
  · have hpre : bitsBelow bins.bin_count_mask m <+: bitsBelow bins.bin_count_mask 64 :=
      bitsBelow_initial_segment _ (by omega)
    have htake := List.prefix_iff_eq_take.mp hpre
    rw [hlen] at htake
    rw [hbase, ← bitsBelow_sum, depth_bits, ← htake]
  · intro hlt
    rw [hptr, Nat.mod_eq_of_lt hlt]

/-- Witness for C2: on the mask with bits 0, 5, 7 the base at the third call is
`1 + 32 = 33`. -/
theorem offset_base_is_sum_of_lower_depths_witness :
    2 < _mm_popcnt_u64 example_bins.bin_count_mask ∧
    bin_ofs_base example_bins (iter_after example_bins ⟨1000, 2000⟩ 2) = 33 ∧
    (((depth_bits example_bins.bin_count_mask).take 2).map (fun p => 2 ^ p)).sum = 33 :=
  ⟨by decide,
    (offset_base_is_sum_of_lower_depths example_bins ⟨1000, 2000⟩ 2 (by decide)).2.1.trans
      (by decide),
    by decide⟩

/-! ## The exhausted state -/

/-- C3. In every iterator state with `depth_mask & ~finished = 0`, reachable or
not, `bin_iterator_next` returns the slice `{NULL, 0}` and the info
`{{0, 0}, 0}` and leaves the iterator as it was, so a repeated call returns the
same again. -/
theorem exhausted_step_is_idempotent (bins : bins_t) (it : bin_iterator_t)
    (h : bins.bin_count_mask &&& ((2 ^ 64 - 1) ^^^ it.finished) = 0) :
    (bin_iterator_next bins it).1.slice = { ptr := none, cnt := 0 } ∧
    (bin_iterator_next bins it).1.info
        = { range := { start := 0, end_ := 0 }, bin_size := 0 } ∧
    (bin_iterator_next bins it).2 = it ∧
    bin_iterator_next bins (bin_iterator_next bins it).2 = bin_iterator_next bins it := by
  have hr : remaining bins it = 0 := h
  have hstep := bin_iterator_next_of_zero bins it hr
  refine ⟨?_, ?_, ?_, ?_⟩
  · rw [hstep]; rfl
  · rw [hstep]; rfl
  · rw [hstep]
  · rw [hstep]; exact hstep

/-- Witness for C3: the example index with every bit finished. -/
theorem exhausted_step_is_idempotent_witness :
    example_bins.bin_count_mask &&& ((2 ^ 64 - 1) ^^^ (255 : Nat)) = 0 ∧
    (bin_iterator_next example_bins ⟨⟨1000, 2000⟩, 255⟩).2 = ⟨⟨1000, 2000⟩, 255⟩ :=
  ⟨by decide,
    (exhausted_step_is_idempotent example_bins ⟨⟨1000, 2000⟩, 255⟩ (by decide)).2.2.1⟩

/-! ## The first depth -/

/-- The first call on a fresh iterator over an index with bit 0 set and
`bin_pitch_indices[0] = 62`: the locals of `bin_iterator_next`. -/
theorem first_step_locals (bins : bins_t) (range : genomic_range_t)
    (h0 : bins.bin_count_mask.testBit 0 = true) (hp : bins.bin_pitch_indices 0 = 62) :
    remaining bins (bin_iterator_init bins range) ≠ 0 ∧
    bin_ofs_base bins (bin_iterator_init bins range) = 0 ∧
    bin_pitch_index bins (bin_iterator_init bins range) = 62 ∧
    bin_ofs_disp_end bins (bin_iterator_init bins range) = 1 := by
  have hf : (bin_iterator_init bins range).finished = 2 ^ 0 - 1 := rfl
  have hr : remaining bins (bin_iterator_init bins range) ≠ 0 := by
    intro hz
    have h := testBit_remaining bins (bin_iterator_init bins range) (by decide) hf 0
    rw [hz, h0] at h
    simp at h
  have hb : bin_ofs_base bins (bin_iterator_init bins range) = 0 := by
    rw [bin_ofs_base_of_ones bins _ (by decide) hf]
    simp [Nat.mod_one]
  have hl : bin_pitch_index bins (bin_iterator_init bins range) = 62 := by
    unfold bin_pitch_index iterations_done
    rw [hb]
    exact hp
  refine ⟨hr, hb, hl, ?_⟩
  unfold bin_ofs_disp_end
  rw [hl]
  show ((if range.end_ >>> 62 > 0 then 0 else range.end_ >>> 62) + 1) % 2 ^ 64 = 1
  split
  · rfl
  · have : range.end_ >>> 62 = 0 := by omega
    rw [this]
    rfl

/-- The value of the first call for a query that starts below `2 ^ 63`. -/
theorem first_step_value (bins : bins_t) (range : genomic_range_t)
    (h0 : bins.bin_count_mask.testBit 0 = true) (hp : bins.bin_pitch_indices 0 = 62)
    (hs : range.start < 2 ^ 63) :
    bin_ofs_disp_start bins (bin_iterator_init bins range) = 0 ∧
    nth_result bins range 0
      = { slice := { ptr := some 0, cnt := 1 },
          info := { range := { start := 0, end_ := 2 ^ 63 }, bin_size := 2 ^ 63 } } := by
  obtain ⟨hr, hb, hl, he⟩ := first_step_locals bins range h0 hp
  have hst : bin_ofs_disp_start bins (bin_iterator_init bins range) = 0 := by
    unfold bin_ofs_disp_start
    rw [hl]
    show (if range.start >>> 62 > 0 then range.start >>> 62 - 1 else range.start >>> 62) = 0
    have hlt : range.start >>> 62 < 2 := by
      rw [Nat.shiftRight_eq_div_pow]
      exact Nat.div_lt_of_lt_mul (by omega)
    split <;> omega
  refine ⟨hst, ?_⟩
  show (bin_iterator_next bins (bin_iterator_init bins range)).1 = _
  rw [bin_iterator_next_of_ne _ _ hr]
  simp only [bin_range_start, bin_range_end, bin_size, bin_pitch, hb, hst, he, hl]
  decide

/-- C4, refuted as stated: on the example index (bit 0 set, first pitch
exponent 62) the query `[2 ^ 63, 2 ^ 63 + 1000)` has `start ≤ end`, yet the
first call returns the pointer `&bins[1]` with count 0 and the covered range
`{2 ^ 62, 2 ^ 63}`, not one bin at offset 0 with range `{0, 2 ^ 63}`. -/
theorem first_step_single_bin_counterexample :
    example_bins.bin_count_mask.testBit 0 = true ∧
    example_bins.bin_pitch_indices 0 = 62 ∧
    query_beyond.start ≤ query_beyond.end_ ∧
    nth_result example_bins query_beyond 0
      = { slice := { ptr := some 1, cnt := 0 },
          info := { range := { start := 2 ^ 62, end_ := 2 ^ 63 }, bin_size := 2 ^ 63 } } ∧
    nth_result example_bins query_beyond 0
      ≠ { slice := { ptr := some 0, cnt := 1 },
          info := { range := { start := 0, end_ := 2 ^ 63 }, bin_size := 2 ^ 63 } } := by
  decide

/-- C4, amended. For an index with bit 0 of the mask set and
`bin_pitch_indices[0] = 62`, and a query that starts below `2 ^ 63`, the first
call of a fresh iterator returns exactly one bin at flat offset 0, with covered
range `{0, 2 ^ 63}` and bin size `2 ^ 63`; the start and end bin indices are 0
and 1 whatever the margin and the clamp did; and a query that also ends at or
below `2 ^ 63` lies inside the covered range. -/
theorem first_step_single_bin (bins : bins_t) (range : genomic_range_t)
    (h0 : bins.bin_count_mask.testBit 0 = true) (hp : bins.bin_pitch_indices 0 = 62)
    (hs : range.start < 2 ^ 63) :
    nth_result bins range 0
      = { slice := { ptr := some 0, cnt := 1 },
          info := { range := { start := 0, end_ := 2 ^ 63 }, bin_size := 2 ^ 63 } } ∧
    bin_ofs_disp_start bins (iter_after bins range 0) = 0 ∧
    bin_ofs_disp_end bins (iter_after bins range 0) = 1 ∧
    (range.end_ ≤ 2 ^ 63 →
      (nth_result bins range 0).info.range.start ≤ range.start ∧
      range.end_ ≤ (nth_result bins range 0).info.range.end_) := by
  obtain ⟨_, _, _, he⟩ := first_step_locals bins range h0 hp
  obtain ⟨hst, hres⟩ := first_step_value bins range h0 hp hs
  refine ⟨hres, hst, he, ?_⟩
  intro hend
  rw [hres]
  exact ⟨Nat.zero_le _, hend⟩

/-- Witness for C4: the query `[1000, 2000)` on the example index. -/
theorem first_step_single_bin_witness :
    example_bins.bin_count_mask.testBit 0 = true ∧
    example_bins.bin_pitch_indices 0 = 62 ∧
    (1000 : Nat) < 2 ^ 63 ∧
    nth_result example_bins ⟨1000, 2000⟩ 0
      = { slice := { ptr := some 0, cnt := 1 },
          info := { range := { start := 0, end_ := 2 ^ 63 }, bin_size := 2 ^ 63 } } :=
  ⟨by decide, by decide, by decide,
    (first_step_single_bin example_bins ⟨1000, 2000⟩ (by decide) (by decide) (by decide)).1⟩

/-! ## The clamp of the end index -/

/-- C5, evaluated on the worked example of the source (bits 0, 5, 7; pitch
exponents 62, 18, 15) with the query `[9 * 2 ^ 18, 10 * 2 ^ 18)`. At the second
call the depth at bit 5 is visited: it has 32 bins, so its last bin index is
31, but `finished` is 1. The end cell 10 is therefore cut to 1 and
`bin_ofs_disp_end` is 2 instead of 11; with `bin_ofs_disp_start = 8` the count
`2 - 8` wraps around. -/
theorem clamp_bound_differs_from_last_bin_index :
    depth_bits example_bins.bin_count_mask = [0, 5, 7] ∧
    remaining example_bins (iter_after example_bins query_cell9 1) ≠ 0 ∧
    (iter_after example_bins query_cell9 1).finished = 1 ∧
    (iter_after example_bins query_cell9 1).finished ≠ 2 ^ 5 - 1 ∧
    bin_pitch_index example_bins (iter_after example_bins query_cell9 1) = 18 ∧
    query_cell9.end_ >>> 18 = 10 ∧
    bin_ofs_disp_end example_bins (iter_after example_bins query_cell9 1) = 2 ∧
    min (query_cell9.end_ >>> 18) (2 ^ 5 - 1) + 1 = 11 ∧
    bin_ofs_disp_start example_bins (iter_after example_bins query_cell9 1) = 8 ∧
    (nth_result example_bins query_cell9 1).slice
      = { ptr := some 9, cnt := 2 ^ 64 - 6 } := by
  decide

/-! ## Margins -/

theorem iter_after_range (bins : bins_t) (range : genomic_range_t) (n : Nat) :
    (iter_after bins range n).range = range := by
  induction n with
  | zero => rfl
  | succ n ih =>
    show (bin_iterator_next bins (iter_after bins range n)).2.range = range
    unfold bin_iterator_next
    split
    · exact ih
    · exact ih

/-- C6, refuted as stated: on the example index at the second call (the depth
at bit 5, 32 bins, pitch `2 ^ 18`) the query `[1000, 2000)` lies in cell
`j = 0`, the neighbour `j + 1 = 1` exists, yet the slice is `bins[1 .. 2)` with
count 1: it does not contain the flat index `base + 1 = 2` of bin 1. -/
theorem margin_includes_both_neighbours_counterexample :
    depth_bits example_bins.bin_count_mask = [0, 5, 7] ∧
    bin_pitch_index example_bins (iter_after example_bins ⟨1000, 2000⟩ 1) = 18 ∧
    (1000 : Nat) >>> 18 = 0 ∧ (2000 : Nat) >>> 18 = 0 ∧ 0 + 1 < 2 ^ 5 ∧
    bin_ofs_base example_bins (iter_after example_bins ⟨1000, 2000⟩ 1) = 1 ∧
    (nth_result example_bins ⟨1000, 2000⟩ 1).slice = { ptr := some 1, cnt := 1 } ∧
    slice_contains (nth_result example_bins ⟨1000, 2000⟩ 1).slice (1 + (0 + 1)) = false := by
  decide

/-- C6, amended. At a produced call of a fresh iterator, let the query lie in
one cell `j` of the depth (`start >> l = end >> l = j` for the pitch exponent
`l` read by the call), with `j` at most the value `finished` has before the
call, which is the bound the end index is cut to. Then the slice is
`[j - 1, j + 1)` within the depth: it contains bin `j`, contains bin `j - 1`
when `j ≥ 1`, does not contain bin `j + 1`, and its count is 2 when `j ≥ 1`
and 1 when `j = 0`. -/
theorem margin_includes_preceding_bin (bins : bins_t) (range : genomic_range_t)
    (n j : Nat) (hn : n < _mm_popcnt_u64 bins.bin_count_mask)
    (hs : range.start >>> bin_pitch_index bins (iter_after bins range n) = j)
    (he : range.end_ >>> bin_pitch_index bins (iter_after bins range n) = j)
    (hj : j ≤ (iter_after bins range n).finished) :
    bin_ofs_disp_start bins (iter_after bins range n) = j - 1 ∧
    bin_ofs_disp_end bins (iter_after bins range n) = j + 1 ∧
    (nth_result bins range n).slice.ptr
      = some (bin_ofs_base bins (iter_after bins range n) + (j - 1)) ∧
    (nth_result bins range n).slice.cnt = (if j = 0 then 1 else 2) ∧
    1 ≤ (nth_result bins range n).slice.cnt ∧
    slice_contains (nth_result bins range n).slice
      (bin_ofs_base bins (iter_after bins range n) + j) = true ∧
    (1 ≤ j → slice_contains (nth_result bins range n).slice
      (bin_ofs_base bins (iter_after bins range n) + (j - 1)) = true) ∧
    slice_contains (nth_result bins range n).slice
      (bin_ofs_base bins (iter_after bins range n) + (j + 1)) = false := by
  obtain ⟨m, hm, hf, _, hbase, _⟩ := produced_step_shape bins range hn
  have hr := (remaining_ne_zero_iff bins range n).mpr hn
  have hpow : 2 ^ m ≤ 2 ^ 63 := Nat.pow_le_pow_right (by decide) hm
  have hmpos : 0 < 2 ^ m := Nat.two_pow_pos m
  have hjlt : j < 2 ^ 63 := by rw [hf] at hj; omega
  have hblt : bin_ofs_base bins (iter_after bins range n) < 2 ^ 63 := by
    rw [hbase]
    have := Nat.mod_lt bins.bin_count_mask hmpos
    omega
  have hst : bin_ofs_disp_start bins (iter_after bins range n) = j - 1 := by
    unfold bin_ofs_disp_start
    simp only [iter_after_range, hs]
    split <;> omega
  have hen : bin_ofs_disp_end bins (iter_after bins range n) = j + 1 := by
    unfold bin_ofs_disp_end
    simp only [iter_after_range, he]
    rw [if_neg (by omega)]
    exact Nat.mod_eq_of_lt (by omega)
  have hptr : (nth_result bins range n).slice.ptr
      = some (bin_ofs_base bins (iter_after bins range n) + (j - 1)) := by
    unfold nth_result
    rw [bin_iterator_next_of_ne _ _ hr]
    simp only [hst]
    rw [Nat.mod_eq_of_lt (by omega)]
  have hcnt : (nth_result bins range n).slice.cnt = (if j = 0 then 1 else 2) := by
    unfold nth_result
    rw [bin_iterator_next_of_ne _ _ hr]
    simp only [hst, hen]
    split <;> omega
  have hc : ∀ i, slice_contains (nth_result bins range n).slice i
      = (decide (bin_ofs_base bins (iter_after bins range n) + (j - 1) ≤ i) &&
          decide (i < bin_ofs_base bins (iter_after bins range n) + (j - 1)
                        + (if j = 0 then 1 else 2))) := by
    intro i
    unfold slice_contains
    rw [hptr, hcnt]
  refine ⟨hst, hen, hptr, hcnt, ?_, ?_, ?_, ?_⟩
  · rw [hcnt]; split <;> omega
  · rw [hc]
    by_cases h0 : j = 0
    · subst h0; simp
    · simp [h0]; omega
  · intro h1
    rw [hc]
    have h0 : j ≠ 0 := by omega
    simp [h0]
  · rw [hc]
    by_cases h0 : j = 0
    · subst h0; simp
    · simp [h0]; omega

/-- Witness for C6 (amended): the query `[2 ^ 18, 2 ^ 18 + 5)` lies in cell 1 of
the second depth of the example index; the slice holds bins 0 and 1. -/
theorem margin_includes_preceding_bin_witness :
    1 < _mm_popcnt_u64 example_bins.bin_count_mask ∧
    (2 ^ 18 : Nat) >>> bin_pitch_index example_bins
        (iter_after example_bins ⟨2 ^ 18, 2 ^ 18 + 5⟩ 1) = 1 ∧
    (2 ^ 18 + 5 : Nat) >>> bin_pitch_index example_bins
        (iter_after example_bins ⟨2 ^ 18, 2 ^ 18 + 5⟩ 1) = 1 ∧
    1 ≤ (iter_after example_bins ⟨2 ^ 18, 2 ^ 18 + 5⟩ 1).finished ∧
    (nth_result example_bins ⟨2 ^ 18, 2 ^ 18 + 5⟩ 1).slice.cnt = 2 :=
  ⟨by decide, by decide, by decide, by decide,
    (margin_includes_preceding_bin example_bins ⟨2 ^ 18, 2 ^ 18 + 5⟩ 1 1
      (by decide) (by decide) (by decide) (by decide)).2.2.2.1⟩

/-! ## The covered range -/

/-- C7. At a produced call (any iterator state with a remaining depth) whose
slice is non-empty (`bin_ofs_disp_start < bin_ofs_disp_end`) and whose largest
shift `(bin_ofs_disp_end + 1) << l` stays below `2 ^ 64`, write
`pitch = 2 ^ l`. Then `bin_pitch = pitch`, `bin_size = 2 * pitch`, the count is
`end_idx - start_idx`, the covered range starts at `start_idx * pitch` (the
start of the first returned bin), ends at `(end_idx + 1) * pitch`, which is
`(end_idx - 1) * pitch + bin_size` (the end of the last returned bin), and its
length is `(count + 1) * pitch`. -/
theorem covered_range_is_span_of_slice (bins : bins_t) (it : bin_iterator_t)
    (hr : remaining bins it ≠ 0)
    (hne : bin_ofs_disp_start bins it < bin_ofs_disp_end bins it)
    (hov : (bin_ofs_disp_end bins it + 1) * 2 ^ bin_pitch_index bins it < 2 ^ 64) :
    bin_pitch bins it = 2 ^ bin_pitch_index bins it ∧
    (bin_iterator_next bins it).1.info.bin_size = 2 * 2 ^ bin_pitch_index bins it ∧
    (bin_iterator_next bins it).1.slice.cnt
      = bin_ofs_disp_end bins it - bin_ofs_disp_start bins it ∧
    (bin_iterator_next bins it).1.info.range.start
      = bin_ofs_disp_start bins it * 2 ^ bin_pitch_index bins it ∧
    (bin_iterator_next bins it).1.info.range.end_
      = (bin_ofs_disp_end bins it + 1) * 2 ^ bin_pitch_index bins it ∧
    (bin_iterator_next bins it).1.info.range.end_
      = (bin_ofs_disp_end bins it - 1) * 2 ^ bin_pitch_index bins it
          + (bin_iterator_next bins it).1.info.bin_size ∧
    (bin_iterator_next bins it).1.info.range.end_
        - (bin_iterator_next bins it).1.info.range.start
      = ((bin_iterator_next bins it).1.slice.cnt + 1) * 2 ^ bin_pitch_index bins it := by
  have hP : 0 < 2 ^ bin_pitch_index bins it := Nat.two_pow_pos _
  have hmono : ∀ a, a ≤ bin_ofs_disp_end bins it + 1 →
      a * 2 ^ bin_pitch_index bins it < 2 ^ 64 := fun a ha =>
    Nat.lt_of_le_of_lt (Nat.mul_le_mul_right _ ha) hov
  have hpitch : bin_pitch bins it = 2 ^ bin_pitch_index bins it := by
    unfold bin_pitch
    rw [Nat.shiftLeft_eq, Nat.one_mul]
    have := hmono 1 (by omega)
    rw [Nat.one_mul] at this
    exact Nat.mod_eq_of_lt this
  have hsize : bin_size bins it = 2 * 2 ^ bin_pitch_index bins it := by
    unfold bin_size
    rw [hpitch]
    exact Nat.mod_eq_of_lt (hmono 2 (by omega))
  have hstart : bin_range_start bins it
      = bin_ofs_disp_start bins it * 2 ^ bin_pitch_index bins it := by
    unfold bin_range_start
    rw [Nat.shiftLeft_eq]
    exact Nat.mod_eq_of_lt (hmono _ (by omega))
  have hend1 : bin_ofs_disp_end bins it + 1 < 2 ^ 64 :=
    Nat.lt_of_le_of_lt (Nat.le_mul_of_pos_right _ hP) hov
  have hend : bin_range_end bins it
      = (bin_ofs_disp_end bins it + 1) * 2 ^ bin_pitch_index bins it := by
    unfold bin_range_end
    rw [Nat.mod_eq_of_lt hend1, Nat.shiftLeft_eq]
    exact Nat.mod_eq_of_lt hov
  have hcnt : (bin_ofs_disp_end bins it + 2 ^ 64 - bin_ofs_disp_start bins it) % 2 ^ 64
      = bin_ofs_disp_end bins it - bin_ofs_disp_start bins it := by
    omega
  have hres := bin_iterator_next_of_ne bins it hr
  have e1 : (bin_iterator_next bins it).1.info.bin_size
      = 2 * 2 ^ bin_pitch_index bins it := by rw [hres]; exact hsize
  have e2 : (bin_iterator_next bins it).1.slice.cnt
      = bin_ofs_disp_end bins it - bin_ofs_disp_start bins it := by rw [hres]; exact hcnt
  have e3 : (bin_iterator_next bins it).1.info.range.start
      = bin_ofs_disp_start bins it * 2 ^ bin_pitch_index bins it := by rw [hres]; exact hstart
  have e4 : (bin_iterator_next bins it).1.info.range.end_
      = (bin_ofs_disp_end bins it + 1) * 2 ^ bin_pitch_index bins it := by rw [hres]; exact hend
  refine ⟨hpitch, e1, e2, e3, e4, ?_, ?_⟩
  · have h2 : bin_ofs_disp_end bins it + 1 = (bin_ofs_disp_end bins it - 1) + 2 := by omega
    rw [e4, e1, h2, Nat.add_mul]
  · rw [e4, e3, e2, ← Nat.sub_mul]
    congr 1
    omega

/-- Witness for C7: the second call of the worked example, one bin with covered
range `{0, 2 ^ 19}`. -/
theorem covered_range_is_span_of_slice_witness :
    remaining example_bins (iter_after example_bins ⟨1000, 2000⟩ 1) ≠ 0 ∧
    bin_ofs_disp_start example_bins (iter_after example_bins ⟨1000, 2000⟩ 1)
      < bin_ofs_disp_end example_bins (iter_after example_bins ⟨1000, 2000⟩ 1) ∧
    (bin_iterator_next example_bins
        (iter_after example_bins ⟨1000, 2000⟩ 1)).1.info.range.end_
      = (bin_ofs_disp_end example_bins (iter_after example_bins ⟨1000, 2000⟩ 1) + 1)
          * 2 ^ bin_pitch_index example_bins (iter_after example_bins ⟨1000, 2000⟩ 1) :=
  ⟨by decide, by decide,
    (covered_range_is_span_of_slice example_bins (iter_after example_bins ⟨1000, 2000⟩ 1)
      (by decide) (by decide) (by decide)).2.2.2.2.1⟩

/-! ## Coverage -/

/-- C8, refuted as stated: `tiling_bins` has bit 0 set and first pitch exponent
62, and the query `[2 ^ 63 - 1, 2 ^ 63 + 1)` has `start ≤ end`; the third call
returns the covered range `[14 * 2 ^ 59, 17 * 2 ^ 59)`, which holds the
coordinate `2 ^ 63` of the query. So the union of the covered ranges cut to the
query is not the query cut to `[0, 2 ^ 63)`. -/
theorem coverage_equals_query_below_top_counterexample :
    tiling_bins.bin_count_mask.testBit 0 = true ∧
    tiling_bins.bin_pitch_indices 0 = 62 ∧
    query_across.start ≤ query_across.end_ ∧
    (nth_result tiling_bins query_across 2).info.range
      = { start := 14 * 2 ^ 59, end_ := 17 * 2 ^ 59 } ∧
    ¬ (∀ x, (covered tiling_bins query_across x ∧
              query_across.start ≤ x ∧ x < query_across.end_)
          ↔ (query_across.start ≤ x ∧ x < query_across.end_ ∧ x < 2 ^ 63)) := by
  refine ⟨by decide, by decide, by decide, by decide, ?_⟩
  intro h
  have hx := (h (2 ^ 63)).mp
    ⟨⟨2, by decide, by decide, by decide⟩, by decide, by decide⟩
  exact absurd hx.2.2 (by decide)

/-- C8, amended. For an index with bit 0 set and `bin_pitch_indices[0] = 62`,
every coordinate of the query below `2 ^ 63` lies in the covered range of a
produced call (the first one), so the union of the covered ranges cut to the
query contains the query cut to `[0, 2 ^ 63)`; and for a query that ends at or
below `2 ^ 63` the two sets are equal. -/
theorem coverage_contains_query_below_top (bins : bins_t) (range : genomic_range_t)
    (h0 : bins.bin_count_mask.testBit 0 = true) (hp : bins.bin_pitch_indices 0 = 62) :
    (∀ x, range.start ≤ x → x < range.end_ → x < 2 ^ 63 → covered bins range x) ∧
    (range.end_ ≤ 2 ^ 63 →
      ∀ x, (covered bins range x ∧ range.start ≤ x ∧ x < range.end_)
          ↔ (range.start ≤ x ∧ x < range.end_ ∧ x < 2 ^ 63)) := by
  have hcov : ∀ x, range.start ≤ x → x < range.end_ → x < 2 ^ 63 → covered bins range x := by
    intro x hsx _ hx
    obtain ⟨_, hres⟩ := first_step_value bins range h0 hp (by omega)
    refine ⟨0, ?_, ?_, ?_⟩
    · rw [hres]; simp
    · rw [hres]; exact Nat.zero_le _
    · rw [hres]; exact hx
  refine ⟨hcov, fun hend x => ⟨?_, ?_⟩⟩
  · rintro ⟨_, hsx, hxe⟩
    exact ⟨hsx, hxe, by omega⟩
  · rintro ⟨hsx, hxe, hx⟩
    exact ⟨hcov x hsx hxe hx, hsx, hxe⟩

/-- Witness for C8 (amended): the coordinate 1500 of the query `[1000, 2000)`
on the example index. -/
theorem coverage_contains_query_below_top_witness :
    example_bins.bin_count_mask.testBit 0 = true ∧
    example_bins.bin_pitch_indices 0 = 62 ∧
    covered example_bins ⟨1000, 2000⟩ 1500 :=
  ⟨by decide, by decide,
    (coverage_contains_query_below_top example_bins ⟨1000, 2000⟩ (by decide) (by decide)).1
      1500 (by decide) (by decide) (by decide)⟩

/-! ## Bin sizes along the traversal -/

/-- The bin size returned by call `n + 1` of a fresh iterator is
`2 ^ (bin_pitch_indices[n] + 1)` when that exponent is at most 62. -/
theorem bin_size_of_step (bins : bins_t) (range : genomic_range_t) {n : Nat}
    (hn : n < _mm_popcnt_u64 bins.bin_count_mask) (h62 : bins.bin_pitch_indices n ≤ 62) :
    bin_pitch_index bins (iter_after bins range n) = bins.bin_pitch_indices n ∧
    (nth_result bins range n).info.bin_size = 2 ^ (bins.bin_pitch_indices n + 1) := by
  obtain ⟨m, _, _, _, _, hdone⟩ := produced_step_shape bins range hn
  have hr := (remaining_ne_zero_iff bins range n).mpr hn
  have hl : bin_pitch_index bins (iter_after bins range n) = bins.bin_pitch_indices n := by
    unfold bin_pitch_index
    rw [hdone]
  refine ⟨hl, ?_⟩
  have h1 : 2 ^ bins.bin_pitch_indices n ≤ 2 ^ 62 := Nat.pow_le_pow_right (by decide) h62
  unfold nth_result
  rw [bin_iterator_next_of_ne _ _ hr]
  show bin_size bins (iter_after bins range n) = _
  unfold bin_size bin_pitch
  have h2 : 2 ^ bins.bin_pitch_indices n < 2 ^ 64 := by omega
  have h3 : 2 * 2 ^ bins.bin_pitch_indices n < 2 ^ 64 := by omega
  rw [hl, Nat.shiftLeft_eq, Nat.one_mul, Nat.mod_eq_of_lt h2, Nat.mod_eq_of_lt h3,
    Nat.pow_succ, Nat.mul_comm]

/-- C9. When the pitch exponents of the populated depths are strictly
decreasing and at most 62, the bin sizes returned by successive produced calls
of a fresh iterator are strictly decreasing: call `n + 2` returns a smaller bin
size than call `n + 1` whenever both are produced. -/
theorem bin_sizes_strictly_decrease (bins : bins_t) (range : genomic_range_t)
    (hdec : ∀ i, i + 1 < _mm_popcnt_u64 bins.bin_count_mask →
      bins.bin_pitch_indices (i + 1) < bins.bin_pitch_indices i)
    (h62 : ∀ i, i < _mm_popcnt_u64 bins.bin_count_mask → bins.bin_pitch_indices i ≤ 62)
    (n : Nat) (hn : n + 1 < _mm_popcnt_u64 bins.bin_count_mask) :
    (nth_result bins range (n + 1)).info.bin_size
      < (nth_result bins range n).info.bin_size := by
  have hn0 : n < _mm_popcnt_u64 bins.bin_count_mask := by omega
  rw [(bin_size_of_step bins range hn (h62 _ hn)).2,
    (bin_size_of_step bins range hn0 (h62 _ hn0)).2]
  exact Nat.pow_lt_pow_right (by decide) (Nat.succ_lt_succ (hdec n hn))

/-- Witness for C9: on the worked example the second call returns `2 ^ 19`,
less than the `2 ^ 63` of the first. -/
theorem bin_sizes_strictly_decrease_witness :
    (nth_result example_bins ⟨1000, 2000⟩ 1).info.bin_size
      < (nth_result example_bins ⟨1000, 2000⟩ 0).info.bin_size :=
  bin_sizes_strictly_decrease example_bins ⟨1000, 2000⟩
    (fun i hi => by
      have h3 : i + 1 < 3 := hi
      have hi2 : i = 0 ∨ i = 1 := by omega
      rcases hi2 with rfl | rfl <;> decide)
    (fun i hi => by
      have h3 : i < 3 := hi
      have hi3 : i = 0 ∨ i = 1 ∨ i = 2 := by omega
      rcases hi3 with rfl | rfl | rfl <;> decide)
    0 (by decide)

/-! ## The stored query -/

/-- C10. `bin_iterator_init` returns the iterator holding the given query and
the finished mask 0; a call of `bin_iterator_next`, produced or exhausted,
leaves the stored query as it is, so `finished` is the only field that can
change; and after any number of calls on a fresh iterator the stored query is
still the one passed to `bin_iterator_init`. -/
theorem query_is_never_changed (bins : bins_t) (range : genomic_range_t)
    (it : bin_iterator_t) (n : Nat) :
    bin_iterator_init bins range = { range := range, finished := 0 } ∧
    (bin_iterator_next bins it).2.range = it.range ∧
    (bin_iterator_next bins it).2
      = { range := it.range, finished := (bin_iterator_next bins it).2.finished } ∧
    (iter_after bins range n).range = range := by
  have hstep : (bin_iterator_next bins it).2.range = it.range := by
    unfold bin_iterator_next
    split <;> rfl
  refine ⟨rfl, hstep, ?_, iter_after_range bins range n⟩
  rw [← hstep]

/-! ## The depth visited by a produced call -/

/-- From a state whose `finished` is `2 ^ m - 1` and with a depth remaining:
the lowest remaining bit `p` is the next set bit of the mask at or above `m`,
it is the only bit of `remaining` up to `p`, and `finished` becomes
`2 ^ (p + 1) - 1`. -/
theorem next_depth_of_ones (bins : bins_t) (it : bin_iterator_t) {m : Nat}
    (hm : m ≤ 64) (hf : it.finished = 2 ^ m - 1) (hr : remaining bins it ≠ 0) :
    ∃ p, m ≤ p ∧ p < 64 ∧ bins.bin_count_mask.testBit p = true ∧
      (∀ i, m ≤ i → i < p → bins.bin_count_mask.testBit i = false) ∧
      bitsBelow bins.bin_count_mask (p + 1) = bitsBelow bins.bin_count_mask m ++ [p] ∧
      bitsBelow (remaining bins it) (p + 1) = [p] ∧
      remaining bins it ^^^ (remaining bins it - 1) = 2 ^ (p + 1) - 1 := by
  obtain ⟨p, hp, hlow, hx⟩ := xor_pred_eq _ hr
  have hp1 := hp
  rw [testBit_remaining bins it hm hf p] at hp1
  simp only [Bool.and_eq_true, decide_eq_true_eq, Bool.not_eq_true', decide_eq_false_iff_not]
    at hp1
  obtain ⟨hbit, h64, hnm⟩ := hp1
  have hclear : ∀ i, m ≤ i → i < p → bins.bin_count_mask.testBit i = false := by
    intro i hi hlt
    have h := hlow i hlt
    rw [testBit_remaining bins it hm hf i] at h
    have h1 : i < 64 := by omega
    have h2 : ¬ i < m := by omega
    simpa [h1, h2] using h
  refine ⟨p, by omega, h64, hbit, hclear, ?_, ?_, hx⟩
  · rw [bitsBelow_succ, bitsBelow_eq_of_clear _ (show m ≤ p by omega) hclear, hbit]
    simp
  · rw [bitsBelow_succ, bitsBelow_eq_of_clear _ (Nat.zero_le p) (fun i _ hlt => hlow i hlt), hp]
    simp [bitsBelow]

theorem getElem?_of_snoc_initial {l L : List Nat} {p n : Nat} (hlen : l.length = n)
    (hpre : l ++ [p] <+: L) : L[n]? = some p := by
  obtain ⟨t, rfl⟩ := hpre
  rw [List.append_assoc, List.getElem?_append_right (by omega)]
  simp [hlen]

theorem depth_bits_pairwise (mask : Nat) : List.Pairwise (· < ·) (depth_bits mask) :=
  List.Pairwise.filter _ (List.pairwise_lt_range 64)

/-- The produced call number `n + 1` of a fresh iterator visits the depth at
position `n` of the list of set bits of the mask. -/
theorem produced_step_visits (bins : bins_t) (range : genomic_range_t) {n : Nat}
    (hn : n < _mm_popcnt_u64 bins.bin_count_mask) :
    ∃ m p, m ≤ p ∧ p < 64 ∧
      (iter_after bins range n).finished = 2 ^ m - 1 ∧
      (iter_after bins range (n + 1)).finished = 2 ^ (p + 1) - 1 ∧
      bins.bin_count_mask.testBit p = true ∧
      (∀ i, m ≤ i → i < p → bins.bin_count_mask.testBit i = false) ∧
      (depth_bits bins.bin_count_mask)[n]? = some p ∧
      bitsBelow bins.bin_count_mask (p + 1) = bitsBelow bins.bin_count_mask m ++ [p] ∧
      lowbit (remaining bins (iter_after bins range n)) = 2 ^ p := by
  obtain ⟨m, hm, hf, hlen, _, _⟩ := produced_step_shape bins range hn
  have hr := (remaining_ne_zero_iff bins range n).mpr hn
  obtain ⟨p, hmp, hp, hbit, hclear, hsnoc, hrem, hx⟩ :=
    next_depth_of_ones bins (iter_after bins range n) (by omega) hf hr
  refine ⟨m, p, hmp, hp, hf, ?_, hbit, hclear, ?_, hsnoc, ?_⟩
  · show (bin_iterator_next bins (iter_after bins range n)).2.finished = _
    rw [bin_iterator_next_of_ne _ _ hr]
    exact hx
  · apply getElem?_of_snoc_initial hlen
    rw [← hsnoc]
    exact bitsBelow_initial_segment _ (by omega)
  · have hpre : bitsBelow (remaining bins (iter_after bins range n)) (p + 1)
        <+: depth_bits (remaining bins (iter_after bins range n)) :=
      bitsBelow_initial_segment _ (by omega)
    rw [hrem] at hpre
    obtain ⟨t, ht⟩ := hpre
    unfold lowbit
    rw [← ht]
    rfl

/-- C11. At a produced call of a fresh iterator (call `n + 1` with `n` below
the population count of the mask) exactly one more depth is marked finished,
the lowest remaining one: `depth_mask & finished` after the call is
`depth_mask & finished` before it, or-ed with the lowest set bit of
`depth_mask & ~finished`. That bit is `2 ^ p` for the entry `p` at position `n`
of the increasing list of set bits of the mask; it was not marked before the
call and is marked after it. The list is strictly increasing, so the depths are
visited one per call in increasing bit position and none twice. -/
theorem produced_step_marks_lowest_remaining (bins : bins_t) (range : genomic_range_t)
    (n : Nat) (hn : n < _mm_popcnt_u64 bins.bin_count_mask) :
    bins.bin_count_mask &&& (iter_after bins range (n + 1)).finished
      = (bins.bin_count_mask &&& (iter_after bins range n).finished)
          ||| lowbit (bins.bin_count_mask &&& ((2 ^ 64 - 1) ^^^ (iter_after bins range n).finished)) ∧
    (∃ p, (depth_bits bins.bin_count_mask)[n]? = some p ∧
        lowbit (bins.bin_count_mask &&& ((2 ^ 64 - 1) ^^^ (iter_after bins range n).finished))
          = 2 ^ p ∧
        (bins.bin_count_mask &&& (iter_after bins range n).finished).testBit p = false ∧
        (bins.bin_count_mask &&& (iter_after bins range (n + 1)).finished).testBit p = true) ∧
    List.Pairwise (· < ·) (depth_bits bins.bin_count_mask) := by
  obtain ⟨m, p, hmp, hp, hf, hf1, hbit, hclear, hget, _, hlow⟩ :=
    produced_step_visits bins range hn
  have hlow1 : lowbit (bins.bin_count_mask &&&
      ((2 ^ 64 - 1) ^^^ (iter_after bins range n).finished)) = 2 ^ p := hlow
  have hold : (bins.bin_count_mask &&& (iter_after bins range n).finished).testBit p
      = false := by
    rw [hf, Nat.and_pow_two_sub_one_eq_mod, Nat.testBit_mod_two_pow]
    have : ¬ p < m := by omega
    simp [this]
  have hnew : (bins.bin_count_mask &&& (iter_after bins range (n + 1)).finished).testBit p
      = true := by
    rw [hf1, Nat.and_pow_two_sub_one_eq_mod, Nat.testBit_mod_two_pow]
    simp [hbit]
  refine ⟨?_, ⟨p, hget, hlow1, hold, hnew⟩, depth_bits_pairwise _⟩
  rw [hlow1, hf, hf1, Nat.and_pow_two_sub_one_eq_mod, Nat.and_pow_two_sub_one_eq_mod]
  apply Nat.eq_of_testBit_eq
  intro i
  rw [Nat.testBit_or, Nat.testBit_mod_two_pow, Nat.testBit_mod_two_pow, Nat.testBit_two_pow]
  rcases Nat.lt_trichotomy i p with hlt | heq | hgt
  · have h1 : i < p + 1 := by omega
    have h2 : ¬ p = i := by omega
    by_cases h3 : i < m
    · simp [h1, h2, h3]
    · have := hclear i (by omega) hlt
      simp [h1, h2, h3, this]
  · subst heq
    simp [hbit]
  · have h1 : ¬ i < p + 1 := by omega
    have h2 : ¬ p = i := by omega
    have h3 : ¬ i < m := by omega
    simp [h1, h2, h3]

/-- Witness for C11: on the mask with bits 0, 5, 7 the second call adds the
bit 5 to the finished depths, `1 ||| 32 = 33`. -/
theorem produced_step_marks_lowest_remaining_witness :
    1 < _mm_popcnt_u64 example_bins.bin_count_mask ∧
    example_bins.bin_count_mask &&& (iter_after example_bins ⟨1000, 2000⟩ 2).finished = 33 ∧
    lowbit (example_bins.bin_count_mask &&&
      ((2 ^ 64 - 1) ^^^ (iter_after example_bins ⟨1000, 2000⟩ 1).finished)) = 32 :=
  ⟨by decide,
    (produced_step_marks_lowest_remaining example_bins ⟨1000, 2000⟩ 1 (by decide)).1.trans
      (by decide),
    by decide⟩

/-- C12. For `i` below the population count of the mask, at call `i + 1` of a
fresh iterator the depth order `popcount(depth_mask & finished)` is `i`, so the
call reads `bin_pitch_indices[i]`; when that exponent is at most 62 the bin
size returned is `2 * 2 ^ bin_pitch_indices[i] = 2 ^ (bin_pitch_indices[i] + 1)`. -/
theorem step_reads_pitch_of_depth_order (bins : bins_t) (range : genomic_range_t)
    (i : Nat) (hi : i < _mm_popcnt_u64 bins.bin_count_mask) :
    _mm_popcnt_u64 (bins.bin_count_mask &&& (iter_after bins range i).finished) = i ∧
    iterations_done bins (iter_after bins range i) = i ∧
    bin_pitch_index bins (iter_after bins range i) = bins.bin_pitch_indices i ∧
    (bins.bin_pitch_indices i ≤ 62 →
      (nth_result bins range i).info.bin_size = 2 * 2 ^ bins.bin_pitch_indices i ∧
      (nth_result bins range i).info.bin_size = 2 ^ (bins.bin_pitch_indices i + 1)) := by
  obtain ⟨m, hm, hf, hlen, _, hdone⟩ := produced_step_shape bins range hi
  have hl : bin_pitch_index bins (iter_after bins range i) = bins.bin_pitch_indices i := by
    unfold bin_pitch_index
    rw [hdone]
  refine ⟨?_, hdone, hl, ?_⟩
  · rw [hf, Nat.and_pow_two_sub_one_eq_mod, popcnt_mod _ (show m ≤ 64 by omega), hlen]
  · intro h62
    have hsz := (bin_size_of_step bins range hi h62).2
    refine ⟨?_, hsz⟩
    rw [hsz, Nat.pow_succ, Nat.mul_comm]

/-- Witness for C12: with pitch exponents 62, 18, 15 the third call returns the
bin size `2 ^ 16`. -/
theorem step_reads_pitch_of_depth_order_witness :
    2 < _mm_popcnt_u64 example_bins.bin_count_mask ∧
    example_bins.bin_pitch_indices 2 ≤ 62 ∧
    (nth_result example_bins ⟨1000, 2000⟩ 0).info.bin_size = 2 ^ 63 ∧
    (nth_result example_bins ⟨1000, 2000⟩ 1).info.bin_size = 2 ^ 19 ∧
    (nth_result example_bins ⟨1000, 2000⟩ 2).info.bin_size = 2 ^ 16 :=
  ⟨by decide, by decide, by decide, by decide,
    ((step_reads_pitch_of_depth_order example_bins ⟨1000, 2000⟩ 2 (by decide)).2.2.2
      (by decide)).2.trans (by decide)⟩

/-! ## Bounds on the slice -/

/-- At a produced call the end index is at most `finished + 1 = 2 ^ m`. -/
theorem bin_ofs_disp_end_le (bins : bins_t) (it : bin_iterator_t) :
    bin_ofs_disp_end bins it ≤ it.finished + 1 := by
  unfold bin_ofs_disp_end
  refine Nat.le_trans (Nat.mod_le _ _) ?_
  show (if it.range.end_ >>> bin_pitch_index bins it > it.finished then it.finished
      else it.range.end_ >>> bin_pitch_index bins it) + 1 ≤ it.finished + 1
  split <;> omega

/-- C13. At a produced call of a fresh iterator visiting the depth at bit
position `p` (entry `n` of the list of set bits), for every query, the
exclusive end index of the slice is at most `2 ^ p`; so the flat index
`bin_ofs_base + bin_ofs_disp_end` is at most the flat offset of the next depth
(the sum of `2 ^ q` over the first `n + 1` set bits), at most the total bin
count, and at most the integer value of the mask. -/
theorem slice_end_within_depth (bins : bins_t) (range : genomic_range_t)
    (n : Nat) (hn : n < _mm_popcnt_u64 bins.bin_count_mask) :
    ∃ p, (depth_bits bins.bin_count_mask)[n]? = some p ∧
      bin_ofs_disp_end bins (iter_after bins range n) ≤ 2 ^ p ∧
      bin_ofs_base bins (iter_after bins range n)
          + bin_ofs_disp_end bins (iter_after bins range n)
        ≤ (((depth_bits bins.bin_count_mask).take (n + 1)).map (fun q => 2 ^ q)).sum ∧
      bin_ofs_base bins (iter_after bins range n)
          + bin_ofs_disp_end bins (iter_after bins range n)
        ≤ ((depth_bits bins.bin_count_mask).map (fun q => 2 ^ q)).sum ∧
      bin_ofs_base bins (iter_after bins range n)
          + bin_ofs_disp_end bins (iter_after bins range n)
        ≤ bins.bin_count_mask := by
  obtain ⟨m, p, hmp, hp, hf, _, _, _, hget, hsnoc, _⟩ := produced_step_visits bins range hn
  obtain ⟨m1, hm1, hf1, hlen, hbase, _⟩ := produced_step_shape bins range hn
  have hmpos : 0 < 2 ^ m := Nat.two_pow_pos m
  have hmm : m1 = m := by
    have h : 2 ^ m1 - 1 = 2 ^ m - 1 := by rw [← hf1, ← hf]
    have h1 : 0 < 2 ^ m1 := Nat.two_pow_pos m1
    have h2 : 2 ^ m1 = 2 ^ m := by omega
    exact Nat.pow_right_injective (Nat.le_refl 2) h2
  subst hmm
  have hpow : 2 ^ m1 ≤ 2 ^ p := Nat.pow_le_pow_right (by decide) hmp
  have hend : bin_ofs_disp_end bins (iter_after bins range n) ≤ 2 ^ m1 := by
    have := bin_ofs_disp_end_le bins (iter_after bins range n)
    rw [hf] at this
    omega
  have hpre : bitsBelow bins.bin_count_mask (p + 1) <+: depth_bits bins.bin_count_mask :=
    bitsBelow_initial_segment _ (by omega)
  have htake := List.prefix_iff_eq_take.mp hpre
  have hlen1 : (bitsBelow bins.bin_count_mask (p + 1)).length = n + 1 := by
    rw [hsnoc, List.length_append, hlen]
    rfl
  rw [hlen1] at htake
  have hnext : (((depth_bits bins.bin_count_mask).take (n + 1)).map (fun q => 2 ^ q)).sum
      = bins.bin_count_mask % 2 ^ m1 + 2 ^ p := by
    rw [← htake, hsnoc, List.map_append, List.sum_append, bitsBelow_sum]
    simp
  have htotal : ((depth_bits bins.bin_count_mask).map (fun q => 2 ^ q)).sum
      = bins.bin_count_mask % 2 ^ 64 := bitsBelow_sum _ 64
  have hnext2 : bins.bin_count_mask % 2 ^ m1 + 2 ^ p = bins.bin_count_mask % 2 ^ (p + 1) := by
    rw [← hnext, ← htake, bitsBelow_sum]
  have hle : bins.bin_count_mask % 2 ^ (p + 1) ≤ bins.bin_count_mask % 2 ^ 64 := by
    have hdvd : 2 ^ (p + 1) ∣ 2 ^ 64 := Nat.pow_dvd_pow 2 (by omega)
    rw [← Nat.mod_mod_of_dvd bins.bin_count_mask hdvd]
    exact Nat.mod_le _ _
  have hmask : bins.bin_count_mask % 2 ^ 64 ≤ bins.bin_count_mask := Nat.mod_le _ _
  refine ⟨p, hget, by omega, ?_, ?_, ?_⟩
  · rw [hnext, hbase]; omega
  · rw [htotal, hbase]; omega
  · rw [hbase]; omega

/-- Witness for C13: the second call of the worked example, for a query in
cells 9 and 10 of the depth at bit 5. -/
theorem slice_end_within_depth_witness :
    1 < _mm_popcnt_u64 example_bins.bin_count_mask ∧
    ∃ p, (depth_bits example_bins.bin_count_mask)[1]? = some p ∧
      bin_ofs_disp_end example_bins (iter_after example_bins query_cell9 1) ≤ 2 ^ p ∧
      bin_ofs_base example_bins (iter_after example_bins query_cell9 1)
          + bin_ofs_disp_end example_bins (iter_after example_bins query_cell9 1)
        ≤ example_bins.bin_count_mask :=
  ⟨by decide,
    (slice_end_within_depth example_bins query_cell9 1 (by decide)).imp
      (fun _ h => ⟨h.1, h.2.1, h.2.2.2.2⟩)⟩

/-- C14, refuted as stated: on the worked example the query
`[2 ^ 30, 2 ^ 30 + 1)` has `start ≤ end`; at the second call (the depth at bit
5, 32 bins, pitch `2 ^ 18`) its cell 4096 lies beyond the depth, the start
index is 4095 and the end index 2, so the count `2 - 4095` wraps around to
`2 ^ 64 - 4093`, far above the 32 bins of the depth. -/
theorem slice_count_does_not_wrap_counterexample :
    query_far.start ≤ query_far.end_ ∧
    remaining example_bins (iter_after example_bins query_far 1) ≠ 0 ∧
    (depth_bits example_bins.bin_count_mask)[1]? = some 5 ∧
    bin_ofs_disp_start example_bins (iter_after example_bins query_far 1) = 4095 ∧
    bin_ofs_disp_end example_bins (iter_after example_bins query_far 1) = 2 ∧
    ¬ (bin_ofs_disp_start example_bins (iter_after example_bins query_far 1)
        ≤ bin_ofs_disp_end example_bins (iter_after example_bins query_far 1)) ∧
    (nth_result example_bins query_far 1).slice.cnt = 2 ^ 64 - 4093 ∧
    ¬ ((nth_result example_bins query_far 1).slice.cnt ≤ 2 ^ 5) := by
  decide

/-- C14, amended. At a produced call of a fresh iterator over a query with
`start ≤ end`, if the start cell `start >> l` (for the pitch exponent `l` read
by the call) is at most `finished + 2`, with `finished` the value before the
call, then `bin_ofs_disp_start ≤ bin_ofs_disp_end`, the count is the plain
difference `bin_ofs_disp_end - bin_ofs_disp_start` without wrap-around, and it
is at most `2 ^ p`, the number of bins of the depth visited. -/
theorem slice_count_does_not_wrap (bins : bins_t) (range : genomic_range_t)
    (n : Nat) (hn : n < _mm_popcnt_u64 bins.bin_count_mask)
    (hse : range.start ≤ range.end_)
    (hcell : range.start >>> bin_pitch_index bins (iter_after bins range n)
      ≤ (iter_after bins range n).finished + 2) :
    bin_ofs_disp_start bins (iter_after bins range n)
      ≤ bin_ofs_disp_end bins (iter_after bins range n) ∧
    (nth_result bins range n).slice.cnt
      = bin_ofs_disp_end bins (iter_after bins range n)
          - bin_ofs_disp_start bins (iter_after bins range n) ∧
    ∃ p, (depth_bits bins.bin_count_mask)[n]? = some p ∧
      (nth_result bins range n).slice.cnt ≤ 2 ^ p := by
  obtain ⟨m, p, hmp, hp, hf, _, _, _, hget, _, _⟩ := produced_step_visits bins range hn
  have hr := (remaining_ne_zero_iff bins range n).mpr hn
  have hpow : 2 ^ m ≤ 2 ^ p := Nat.pow_le_pow_right (by decide) hmp
  have hp63 : 2 ^ p ≤ 2 ^ 63 := Nat.pow_le_pow_right (by decide) (by omega)
  have hmpos : 0 < 2 ^ m := Nat.two_pow_pos m
  have hab : range.start >>> bin_pitch_index bins (iter_after bins range n)
      ≤ range.end_ >>> bin_pitch_index bins (iter_after bins range n) := by
    rw [Nat.shiftRight_eq_div_pow, Nat.shiftRight_eq_div_pow]
    exact Nat.div_le_div_right hse
  have hendle := bin_ofs_disp_end_le bins (iter_after bins range n)
  have hend : bin_ofs_disp_end bins (iter_after bins range n)
      = (if range.end_ >>> bin_pitch_index bins (iter_after bins range n)
            > (iter_after bins range n).finished
          then (iter_after bins range n).finished
          else range.end_ >>> bin_pitch_index bins (iter_after bins range n)) + 1 := by
    unfold bin_ofs_disp_end
    simp only [iter_after_range]
    apply Nat.mod_eq_of_lt
    split <;> omega
  have hstart : bin_ofs_disp_start bins (iter_after bins range n)
      = (if range.start >>> bin_pitch_index bins (iter_after bins range n) > 0
          then range.start >>> bin_pitch_index bins (iter_after bins range n) - 1
          else range.start >>> bin_pitch_index bins (iter_after bins range n)) := by
    unfold bin_ofs_disp_start
    simp only [iter_after_range]
  have hle : bin_ofs_disp_start bins (iter_after bins range n)
      ≤ bin_ofs_disp_end bins (iter_after bins range n) := by
    rw [hstart, hend]
    split <;> split <;> omega
  have hcnt : (nth_result bins range n).slice.cnt
      = bin_ofs_disp_end bins (iter_after bins range n)
          - bin_ofs_disp_start bins (iter_after bins range n) := by
    unfold nth_result
    rw [bin_iterator_next_of_ne _ _ hr]
    show (bin_ofs_disp_end bins (iter_after bins range n) + 2 ^ 64
        - bin_ofs_disp_start bins (iter_after bins range n)) % 2 ^ 64 = _
    omega
  refine ⟨hle, hcnt, p, hget, ?_⟩
  rw [hcnt]
  omega

/-- Witness for C14 (amended): the query `[2 ^ 18, 2 ^ 18 + 5)` at the second
call of the worked example: start cell 1, `finished = 1`, count 2. -/
theorem slice_count_does_not_wrap_witness :
    1 < _mm_popcnt_u64 example_bins.bin_count_mask ∧
    (2 ^ 18 : Nat) ≤ 2 ^ 18 + 5 ∧
    (2 ^ 18 : Nat) >>> bin_pitch_index example_bins
        (iter_after example_bins ⟨2 ^ 18, 2 ^ 18 + 5⟩ 1)
      ≤ (iter_after example_bins ⟨2 ^ 18, 2 ^ 18 + 5⟩ 1).finished + 2 ∧
    bin_ofs_disp_start example_bins (iter_after example_bins ⟨2 ^ 18, 2 ^ 18 + 5⟩ 1)
      ≤ bin_ofs_disp_end example_bins (iter_after example_bins ⟨2 ^ 18, 2 ^ 18 + 5⟩ 1) :=
  ⟨by decide, by decide, by decide,
    (slice_count_does_not_wrap example_bins ⟨2 ^ 18, 2 ^ 18 + 5⟩ 1
      (by decide) (by decide) (by decide)).1⟩

/-! ## The shape of `finished` on reachable states -/

theorem iter_after_succ_of_ge (bins : bins_t) (range : genomic_range_t) {n : Nat}
    (hn : _mm_popcnt_u64 bins.bin_count_mask ≤ n) :
    iter_after bins range (n + 1) = iter_after bins range n := by
  have hr : remaining bins (iter_after bins range n) = 0 := by
    by_contra h
    have := (remaining_ne_zero_iff bins range n).mp h
    omega
  show (bin_iterator_next bins (iter_after bins range n)).2 = _
  rw [bin_iterator_next_of_zero _ _ hr]

theorem iter_after_of_ge (bins : bins_t) (range : genomic_range_t) {n : Nat}
    (hn : _mm_popcnt_u64 bins.bin_count_mask ≤ n) :
    iter_after bins range n
      = iter_after bins range (_mm_popcnt_u64 bins.bin_count_mask) := by
  induction n, hn using Nat.le_induction with
  | base => rfl
  | succ n hn ih => rw [iter_after_succ_of_ge bins range hn, ih]

theorem iter_after_min (bins : bins_t) (range : genomic_range_t) (n : Nat) :
    iter_after bins range n
      = iter_after bins range (min n (_mm_popcnt_u64 bins.bin_count_mask)) := by
  rcases Nat.le_total n (_mm_popcnt_u64 bins.bin_count_mask) with h | h
  · rw [Nat.min_eq_left h]
  · rw [Nat.min_eq_right h]
    exact iter_after_of_ge bins range h

/-- C15. On every state reached from `bin_iterator_init` by `n` calls of
`bin_iterator_next`, `finished` is 0, or it is `2 ^ (p + 1) - 1` (which is
below `2 ^ 64`, so also its value modulo `2 ^ 64`) where `p` is the bit
position of the depth visited last: `p` is a set bit of the mask below 64,
entry `min n k - 1` of the list of set bits for the population count `k`, every
bit of `finished` at or below `p` is set and no bit above `p` is set. -/
theorem finished_is_zero_or_low_ones (bins : bins_t) (range : genomic_range_t) (n : Nat) :
    (iter_after bins range n).finished = 0 ∨
    ∃ p, p < 64 ∧ bins.bin_count_mask.testBit p = true ∧
      (depth_bits bins.bin_count_mask)[min n (_mm_popcnt_u64 bins.bin_count_mask) - 1]?
        = some p ∧
      (iter_after bins range n).finished = 2 ^ (p + 1) - 1 ∧
      (iter_after bins range n).finished = (2 ^ (p + 1) - 1) % 2 ^ 64 ∧
      ∀ i, (iter_after bins range n).finished.testBit i = decide (i ≤ p) := by
  rw [iter_after_min bins range n]
  rcases Nat.eq_zero_or_pos (min n (_mm_popcnt_u64 bins.bin_count_mask)) with h0 | hpos
  · left
    rw [h0]
    rfl
  · right
    obtain ⟨j, hj⟩ : ∃ j, min n (_mm_popcnt_u64 bins.bin_count_mask) = j + 1 :=
      ⟨min n (_mm_popcnt_u64 bins.bin_count_mask) - 1, by omega⟩
    have hjk : j < _mm_popcnt_u64 bins.bin_count_mask := by
      have := Nat.min_le_right n (_mm_popcnt_u64 bins.bin_count_mask)
      omega
    obtain ⟨m, p, _, hp, _, hf1, hbit, _, hget, _, _⟩ := produced_step_visits bins range hjk
    rw [hj]
    have hlt : 2 ^ (p + 1) - 1 < 2 ^ 64 := by
      have h1 : 2 ^ (p + 1) ≤ 2 ^ 64 := Nat.pow_le_pow_right (by decide) (by omega)
      have h2 : 0 < 2 ^ (p + 1) := Nat.two_pow_pos _
      omega
    refine ⟨p, hp, hbit, ?_, hf1, ?_, ?_⟩
    · rw [Nat.add_sub_cancel]
      exact hget
    · rw [hf1, Nat.mod_eq_of_lt hlt]
    · intro i
      rw [hf1, Nat.testBit_two_pow_sub_one]
      by_cases hi : i ≤ p
      · have : i < p + 1 := by omega
        simp [hi, this]
      · have : ¬ i < p + 1 := by omega
        simp [hi, this]

/-! ## Independence of the traversal from the query and the tables -/

theorem remaining_congr {b1 b2 : bins_t} {it1 it2 : bin_iterator_t}
    (hmask : b1.bin_count_mask = b2.bin_count_mask) (hfin : it1.finished = it2.finished) :
    remaining b1 it1 = remaining b2 it2 := by
  unfold remaining
  rw [hmask, hfin]

theorem finished_after_congr {b1 b2 : bins_t} (r1 r2 : genomic_range_t)
    (hmask : b1.bin_count_mask = b2.bin_count_mask) (n : Nat) :
    (iter_after b1 r1 n).finished = (iter_after b2 r2 n).finished := by
  induction n with
  | zero => rfl
  | succ n ih =>
    have hrem := remaining_congr hmask ih
    show (bin_iterator_next b1 (iter_after b1 r1 n)).2.finished
      = (bin_iterator_next b2 (iter_after b2 r2 n)).2.finished
    by_cases hr : remaining b1 (iter_after b1 r1 n) = 0
    · rw [bin_iterator_next_of_zero _ _ hr, bin_iterator_next_of_zero _ _ (hrem ▸ hr)]
      exact ih
    · rw [bin_iterator_next_of_ne _ _ hr, bin_iterator_next_of_ne _ _ (hrem ▸ hr)]
      show remaining b1 (iter_after b1 r1 n) ^^^ (remaining b1 (iter_after b1 r1 n) - 1)
        = remaining b2 (iter_after b2 r2 n) ^^^ (remaining b2 (iter_after b2 r2 n) - 1)
      rw [hrem]

theorem step_exhausted_iff (bins : bins_t) (it : bin_iterator_t) :
    (bin_iterator_next bins it).1 = exhausted ↔ remaining bins it = 0 := by
  constructor
  · intro h
    by_contra hr
    rw [bin_iterator_next_of_ne _ _ hr] at h
    have hptr := congrArg (fun r => r.slice.ptr) h
    simp [exhausted] at hptr
  · intro hr
    rw [bin_iterator_next_of_zero _ _ hr]

theorem step_ptr_isSome (bins : bins_t) (it : bin_iterator_t) :
    (bin_iterator_next bins it).1.slice.ptr.isSome = !decide (remaining bins it = 0) := by
  by_cases hr : remaining bins it = 0
  · rw [bin_iterator_next_of_zero _ _ hr]
    simp [hr, exhausted]
  · rw [bin_iterator_next_of_ne _ _ hr]
    simp [hr]

/-- C16. For two indexes with the same depth mask, whatever their pitch tables
and bin arrays, and two fresh iterators over whatever queries: after every
number `n` of calls both iterators have the same `finished`, call `n + 1` is
produced for both or exhausted for both, and both compute the same
`bin_ofs_base`. -/
theorem traversal_depends_on_mask_only (b1 b2 : bins_t) (r1 r2 : genomic_range_t)
    (hmask : b1.bin_count_mask = b2.bin_count_mask) (n : Nat) :
    (iter_after b1 r1 n).finished = (iter_after b2 r2 n).finished ∧
    ((nth_result b1 r1 n).slice.ptr.isSome = (nth_result b2 r2 n).slice.ptr.isSome) ∧
    (nth_result b1 r1 n = exhausted ↔ nth_result b2 r2 n = exhausted) ∧
    bin_ofs_base b1 (iter_after b1 r1 n) = bin_ofs_base b2 (iter_after b2 r2 n) := by
  have hfin := finished_after_congr r1 r2 hmask n
  have hrem := remaining_congr hmask hfin
  refine ⟨hfin, ?_, ?_, ?_⟩
  · unfold nth_result
    rw [step_ptr_isSome, step_ptr_isSome, hrem]
  · unfold nth_result
    rw [step_exhausted_iff, step_exhausted_iff, hrem]
  · unfold bin_ofs_base
    rw [hmask, hfin]

/-- Witness for C16: `example_bins` and `example_bins_alt` share the mask with
bits 0, 5, 7; after two calls over two different queries both iterators have
`finished = 63`. -/
theorem traversal_depends_on_mask_only_witness :
    example_bins.bin_count_mask = example_bins_alt.bin_count_mask ∧
    (iter_after example_bins ⟨1000, 2000⟩ 2).finished = 63 ∧
    (iter_after example_bins_alt query_far 2).finished = 63 ∧
    bin_ofs_base example_bins (iter_after example_bins ⟨1000, 2000⟩ 2)
      = bin_ofs_base example_bins_alt (iter_after example_bins_alt query_far 2) :=
  ⟨rfl, by decide, by decide,
    (traversal_depends_on_mask_only example_bins example_bins_alt ⟨1000, 2000⟩ query_far
      rfl 2).2.2.2⟩

end Biniter
